import Mathlib

set_option maxRecDepth 100000

/-!
# Verification of the Sudoku board core (`board.rs`)

A shallow embedding of the board model and mutation protocol of the
`sudoku-solver-lib` crate.  The definitions in the `board` section mirror
`src/sudoku-solver-lib/src/board.rs` line by line.  The supporting value
types (`ValueMask`, cell/candidate indices, `House`, the `Constraint`
capability, `LogicResult`, `default_regions`) live in modules that are not
part of the shown core; they are modelled from the specification, each with
a doc comment saying so.

Conventions of the embedding:
* `usize` values become `Nat`.
* A `CellIndex` is the dense row-major integer `row * size + col`.
* A `CandidateIndex` is the dense integer `cell * size + (value - 1)`
  (values run over `1..=size`).
* `Vec` indexing becomes `List.getD` / `List.set`; every theorem that
  depends on an index being in range carries the corresponding bound (an
  out-of-range index panics in the source, so no board is produced there).
* A `BTreeSet<CandidateIndex>` becomes a strictly ascending `List ℕ`
  (`insertSorted` below); iterating the set in ascending order is
  iterating the list.
-/

/-- Ordered-set insertion, the model of `BTreeSet::insert`: keep the list
strictly ascending, leaving it unchanged when the element is present. -/
def insertSorted (x : ℕ) : List ℕ → List ℕ
  | [] => [x]
  | y :: ys => if x < y then x :: y :: ys
    else if x = y then y :: ys
    else y :: insertSorted x ys

/-- Modelled from the spec: outcome of a constraint's `enforce` callback;
only `invalid` is distinguished by the board core. -/
inductive LogicResult where
  | invalid : LogicResult
  | changed : LogicResult
  | unchanged : LogicResult
deriving DecidableEq

/-- Modelled from the spec: a `ValueMask` is a bitset over the values
`1..=size` together with a "solved" flag.  The bitset is represented as the
finite set of still-possible values. -/
structure ValueMask where
  values : Finset ℕ
  solved : Bool
deriving DecidableEq

instance : Inhabited ValueMask := ⟨⟨∅, false⟩⟩

/-- Modelled from the spec: the mask with every value `1..=size` possible
and the solved flag clear (`ValueMask::from_all_values`). -/
def ValueMask.from_all_values (size : ℕ) : ValueMask :=
  ⟨Finset.Icc 1 size, false⟩

/-- Modelled from the spec: membership test for one value. -/
def ValueMask.has (m : ValueMask) (val : ℕ) : Bool :=
  decide (val ∈ m.values)

/-- Modelled from the spec: remove one value from the mask (the solved flag
is untouched). -/
def ValueMask.without (m : ValueMask) (val : ℕ) : ValueMask :=
  ⟨m.values.erase val, m.solved⟩

/-- Modelled from the spec: a mask with no possible values signals a
contradiction. -/
def ValueMask.is_empty (m : ValueMask) : Bool :=
  decide (m.values = ∅)

/-- Modelled from the spec: the solved flag. -/
def ValueMask.is_solved (m : ValueMask) : Bool :=
  m.solved

/-- Modelled from the spec: keep only the given value (`with_only`). -/
def ValueMask.with_only (m : ValueMask) (val : ℕ) : ValueMask :=
  ⟨{val}, m.solved⟩

/-- Modelled from the spec: set the solved flag (the Rust method is called
`solved()`; renamed here because `solved` is the field). -/
def ValueMask.setSolved (m : ValueMask) : ValueMask :=
  ⟨m.values, true⟩

/-- Modelled from the spec: a `House` is a named ordered collection of cell
indices that must hold pairwise distinct values. -/
structure House where
  name : String
  cells : List ℕ
deriving DecidableEq

/-- Modelled from the spec: cell index from (row, col), row-major. -/
def cellAt (size row col : ℕ) : ℕ := row * size + col

/-- Modelled from the spec: candidate index from (cell, value),
`value ∈ 1..=size`. -/
def candidateOf (size cell val : ℕ) : ℕ := cell * size + (val - 1)

/-- Modelled from the spec: the cell of a candidate index. -/
def candidateCell (size cand : ℕ) : ℕ := cand / size

/-- Modelled from the spec: the value of a candidate index. -/
def candidateVal (size cand : ℕ) : ℕ := cand % size + 1

/-- Ordered pairs (i before j) drawn from one list, used to enumerate all
unordered cell pairs of a house in the source's iteration order. -/
def pairsOf : List ℕ → List (ℕ × ℕ)
  | [] => []
  | x :: xs => xs.map (fun y => (x, y)) ++ pairsOf xs

/-- Modelled from the spec: `CellUtility::candidate_pairs` — for every
value `1..=size` and every ordered pair of distinct positions in `cells`,
the pair of same-value candidate indices. -/
def candidatePairs (size : ℕ) (cells : List ℕ) : List (ℕ × ℕ) :=
  (List.range size).flatMap
    (fun v0 => (pairsOf cells).map (fun p => (p.1 * size + v0, p.2 * size + v0)))

/-- Modelled from the spec: box dimensions (height, width) of the default
region partition.  For a perfect square this is `√size × √size`; the
policy for non-square sizes is a platform default left open by the spec,
modelled here as a single `1 × size` band shape. -/
def boxDims (size : ℕ) : ℕ × ℕ :=
  let h := ((List.range (size + 1)).filter (fun d => d * d ≤ size)).length - 1
  if h * h = size then (h, h) else (1, size)

/-- Modelled from the spec: `math::default_regions` — the region id of each
cell under the default box partition, row-major, length `size * size`. -/
def default_regions (size : ℕ) : List ℕ :=
  let d := boxDims size
  (List.range (size * size)).map
    (fun c => (c / size / d.1) * (size / d.2) + (c % size) / d.2)

/-- Modelled from the spec: the `Constraint` capability — extra houses,
extra weak links (self pairs signalling forced eliminations), and an
`enforce` callback with read/write access to the per-cell grid.  (The
callback's read-only access to the shared topology cannot affect the grid
and is omitted.) -/
structure Constraint where
  get_houses : ℕ → List House
  get_weak_links : ℕ → List (ℕ × ℕ)
  enforce : List ValueMask → ℕ → ℕ → LogicResult × List ValueMask

/-- The distinct elements of a list in first-occurrence order, used to
enumerate the keys of the source's region `HashMap` deterministically. -/
def distinctIds (seen : List ℕ) : List ℕ → List ℕ
  | [] => []
  | x :: xs => if x ∈ seen then distinctIds seen xs
    else x :: distinctIds (x :: seen) xs

/-- Append a house only if no present house has the same cell list
(the dedup test of `BoardData::create_houses`). -/
def addIfNew (houses : List House) (h : House) : List House :=
  if houses.any (fun h2 => decide (h2.cells = h.cells)) then houses
  else houses ++ [h]

/-- Lines 201–221 of `create_houses`: one house per row, then one per
column, added unconditionally. -/
def rowColHouses (size : ℕ) : List House :=
  ((List.range size).map
    (fun row => House.mk ("Row " ++ toString (row + 1))
      ((List.range size).map (fun col => cellAt size row col)))) ++
  ((List.range size).map
    (fun col => House.mk ("Column " ++ toString (col + 1))
      ((List.range size).map (fun row => cellAt size row col))))

/-- Lines 223–240 of `create_houses`: group cells by region id, and for
each group of exactly `size` cells add a deduplicated region house.  The
source walks an unordered `HashMap`; the grouping is modelled with the
distinct region ids taken in first-occurrence order (group contents and
the dedup rule are order-independent facts of the source; only the
relative order of region houses in the final list is fixed by this
choice). -/
def withRegionHouses (size : ℕ) (regions : List ℕ) (houses : List House) :
    List House :=
  (distinctIds [] regions).foldl
    (fun houses rid =>
      let hcells := (List.range (size * size)).filter
        (fun c => regions.getD c 0 = rid)
      if hcells.length = size then
        addIfNew houses (House.mk ("Region " ++ toString (rid + 1)) hcells)
      else houses)
    houses

/-- Lines 242–250 of `create_houses`: merge every constraint's extra
houses, deduplicated by cell list, in constraint order. -/
def withConstraintHouses (size : ℕ) (constraints : List Constraint)
    (houses : List House) : List House :=
  constraints.foldl
    (fun houses k => (k.get_houses size).foldl addIfNew houses)
    houses

/-- Embedding of `BoardData::create_houses` (lines 186–253): a supplied
region assignment is kept only when its length is `size * size`, the
default box partition replacing it otherwise. -/
def create_houses (size : ℕ) (regions : List ℕ) (constraints : List Constraint) :
    List House :=
  let regions := if regions.length = size * size then regions
    else default_regions size
  withConstraintHouses size constraints
    (withRegionHouses size regions (rowColHouses size))

/-- Embedding of `BoardData::create_houses_by_cell`: for every house, in
order, append it to the membership list of each of its cells. -/
def create_houses_by_cell (size : ℕ) (houses : List House) : List (List House) :=
  houses.foldl
    (fun acc h => h.cells.foldl (fun acc c => acc.set c (acc.getD c [] ++ [h])) acc)
    (List.replicate (size * size) [])

/-- Embedding of `BoardData` (`board.rs` lines 17–28).  The weak-link graph
is a vector of ordered candidate-index sets. -/
structure BoardData where
  size : ℕ
  num_cells : ℕ
  num_candidates : ℕ
  all_values_mask : ValueMask
  houses : List House
  houses_by_cell : List (List House)
  weak_links : List (List ℕ)
  total_weak_links : ℕ
  constraints : List Constraint

instance : Inhabited BoardData :=
  ⟨⟨0, 0, 0, default, [], [], [], 0, []⟩⟩

/-- The weak-link set of one candidate (empty when out of range, where the
source would panic). -/
def wlGet (d : BoardData) (c : ℕ) : List ℕ := d.weak_links.getD c []

/-- One statement of `BoardData::add_weak_link`: insert `c2` into `c1`'s
set and bump `total_weak_links` when the insertion was new. -/
def BoardData.insertHalf (d : BoardData) (c1 c2 : ℕ) : BoardData :=
  if c2 ∈ wlGet d c1 then d
  else { d with weak_links := d.weak_links.set c1 (insertSorted c2 (wlGet d c1)),
                total_weak_links := d.total_weak_links + 1 }

/-- Embedding of `BoardData::add_weak_link` (lines 269–276): insert each
endpoint into the other's set, counting each insertion that was new. -/
def BoardData.add_weak_link (d : BoardData) (c1 c2 : ℕ) : BoardData :=
  (d.insertHalf c1 c2).insertHalf c2 c1

/-- The body of the candidate loop of `init_sudoku_weak_links` (lines
288–301): link `c1` to the later values of its cell, then add every
same-value pair of every house containing its cell. -/
def BoardData.sudokuStep (d : BoardData) (c1 : ℕ) : BoardData :=
  let cell1 := candidateCell d.size c1
  let val1 := candidateVal d.size c1
  let d := (List.range' (val1 + 1) (d.size - val1)).foldl
    (fun d val2 => d.add_weak_link c1 (candidateOf d.size cell1 val2)) d
  (d.houses_by_cell.getD cell1 []).foldl
    (fun d h => (candidatePairs d.size h.cells).foldl
      (fun d p => d.add_weak_link p.1 p.2) d)
    d

/-- Embedding of `BoardData::init_sudoku_weak_links` (lines 283–303): run
the step above for every candidate. -/
def BoardData.init_sudoku_weak_links (d : BoardData) : BoardData :=
  (List.range (d.size * d.size * d.size)).foldl BoardData.sudokuStep d

/-- The body of the pair loop of `init_constraint_weak_links` (lines
309–315): a distinct pair becomes a link; a self pair is collected as a
forced elimination. -/
def pairStep (acc : BoardData × List ℕ) (p : ℕ × ℕ) : BoardData × List ℕ :=
  if p.1 ≠ p.2 then (acc.1.add_weak_link p.1 p.2, acc.2)
  else (acc.1, acc.2 ++ [p.1])

/-- The body of the constraint loop of `init_constraint_weak_links`
(lines 307–316). -/
def BoardData.constraintStep (acc : BoardData × List ℕ) (k : Constraint) :
    BoardData × List ℕ :=
  (k.get_weak_links acc.1.size).foldl pairStep acc

/-- Embedding of `BoardData::init_constraint_weak_links` (lines 305–318). -/
def BoardData.init_constraint_weak_links (d : BoardData) : BoardData × List ℕ :=
  d.constraints.foldl BoardData.constraintStep (d, [])

/-- Embedding of `BoardData::init_weak_links` (lines 278–281). -/
def BoardData.init_weak_links (d : BoardData) : BoardData × List ℕ :=
  d.init_sudoku_weak_links.init_constraint_weak_links

/-- Embedding of `BoardData::new` (lines 166–184). -/
def BoardData.new (size : ℕ) (regions : List ℕ) (constraints : List Constraint) :
    BoardData :=
  let all_values_mask := ValueMask.from_all_values size
  let num_cells := size * size
  let num_candidates := size * num_cells
  let houses := create_houses size regions constraints
  let houses_by_cell := create_houses_by_cell size houses
  { size := size
    num_cells := num_cells
    num_candidates := num_candidates
    all_values_mask := all_values_mask
    houses := houses
    houses_by_cell := houses_by_cell
    weak_links := List.replicate num_candidates []
    total_weak_links := 0
    constraints := constraints }

/-- Embedding of `Board` (lines 11–15): the per-cell grid plus the shared
`BoardData`. -/
structure Board where
  board : List ValueMask
  data : BoardData

/-- Embedding of `Board::cell` (lines 88–90). -/
def Board.cell (b : Board) (cell : ℕ) : ValueMask := b.board.getD cell default

/-- Embedding of `Board::has_candidate` (lines 92–95). -/
def Board.has_candidate (b : Board) (cand : ℕ) : Bool :=
  (b.cell (candidateCell b.data.size cand)).has (candidateVal b.data.size cand)

/-- Embedding of `Board::clear_value` (lines 97–101): remove the value and
report whether the cell still has a possible value. -/
def Board.clear_value (b : Board) (cell val : ℕ) : Board × Bool :=
  let m := (b.board.getD cell default).without val
  ({ b with board := b.board.set cell m }, !m.is_empty)

/-- Embedding of `Board::clear_candidate` (lines 103–106). -/
def Board.clear_candidate (b : Board) (cand : ℕ) : Board × Bool :=
  b.clear_value (candidateCell b.data.size cand) (candidateVal b.data.size cand)

/-- The body of the `clear_candidates` loop (lines 110–114): clear one
entry and fold its outcome into the validity flag. -/
def clearStep (acc : Board × Bool) (cand : ℕ) : Board × Bool :=
  let r := acc.1.clear_candidate cand
  (r.1, acc.2 && r.2)

/-- Embedding of `Board::clear_candidates` (lines 108–116): clear every
entry, keeping a validity flag that any failure turns off. -/
def Board.clear_candidates (b : Board) (cands : List ℕ) : Board × Bool :=
  cands.foldl clearStep (b, true)

/-- The grid after `clear_candidates`, with the validity flag forgotten. -/
def clearAllPure (b : Board) (cands : List ℕ) : Board :=
  cands.foldl (fun b cand => (b.clear_candidate cand).1) b

/-- Embedding of lines 129–130 of `Board::set_solved`: overwrite the cell's
mask with the single-value solved state. -/
def Board.solvedUpdate (b : Board) (cell val : ℕ) : Board :=
  { b with board := b.board.set cell (((b.board.getD cell default).with_only val).setSolved) }

/-- The stored (ascending) weak-link set of the candidate being set, the
sequence the elimination loop of `set_solved` walks. -/
def Board.linkTargets (b : Board) (cell val : ℕ) : List ℕ :=
  wlGet b.data (candidateOf b.data.size cell val)

/-- Embedding of the elimination loop of `Board::set_solved` (lines
136–142): clear each linked candidate, stopping at the first
contradiction. -/
def clearLoop : Board → List ℕ → Board × Bool
  | b, [] => (b, true)
  | b, e :: rest =>
    let r := b.clear_candidate e
    if r.2 then clearLoop r.1 rest else (r.1, false)

/-- Embedding of the constraint loop of `Board::set_solved` (lines
145–149): run each `enforce` callback, stopping at the first `invalid`. -/
def enforceLoop : Board → ℕ → ℕ → List Constraint → Board × Bool
  | b, _, _, [] => (b, true)
  | b, cell, val, k :: rest =>
    let r := k.enforce b.board cell val
    let b := { b with board := r.2 }
    if r.1 = LogicResult.invalid then (b, false)
    else enforceLoop b cell val rest

/-- Embedding of `Board::set_solved` (lines 118–152). -/
def Board.set_solved (b : Board) (cell val : ℕ) : Board × Bool :=
  if !(b.cell cell).has val then (b, false)
  else if (b.board.getD cell default).is_solved then (b, false)
  else
    let b1 := b.solvedUpdate cell val
    let board_data := b.data
    let r := clearLoop b1 (b1.linkTargets cell val)
    if r.2 then enforceLoop r.1 cell val board_data.constraints
    else (r.1, false)

/-- Embedding of `Board::set_mask` (lines 154–162); `none` models the
`assert!(!mask.is_solved())` panic. -/
def Board.set_mask (b : Board) (cell : ℕ) (mask : ValueMask) :
    Option (Board × Bool) :=
  if mask.is_solved then none
  else if mask.is_empty then some (b, false)
  else some ({ b with board := b.board.set cell mask }, true)

/-- Lines 32–33 and 35–38 of `Board::new`: the board whose every cell
holds the all-values mask, over the fully initialised `BoardData`. -/
def freshBoard (size : ℕ) (regions : List ℕ) (constraints : List Constraint) :
    Board :=
  let r := (BoardData.new size regions constraints).init_weak_links
  { board := List.replicate r.1.num_cells r.1.all_values_mask, data := r.1 }

/-- Line 33 of `Board::new`: the forced eliminations returned by
`init_weak_links`. -/
def forcedElims (size : ℕ) (regions : List ℕ) (constraints : List Constraint) :
    List ℕ :=
  (BoardData.new size regions constraints).init_weak_links.2

/-- Embedding of `Board::new` (lines 31–43): build the data, initialise the
weak links, create the all-values grid and apply the forced eliminations
(whose validity flag the source drops). -/
def Board.new (size : ℕ) (regions : List ℕ) (constraints : List Constraint) :
    Board :=
  ((freshBoard size regions constraints).clear_candidates
    (forcedElims size regions constraints)).1

/-- A house whose cells are in range and pairwise distinct (a `House` is an
ordered *set* of cells of the grid; an out-of-range cell would make the
source panic). -/
def HouseWF (size : ℕ) (h : House) : Prop :=
  (∀ c ∈ h.cells, c < size * size) ∧ h.cells.Nodup

/-- A constraint whose extra houses are well-formed and whose weak-link
pairs name candidates of the grid (an out-of-range candidate would make
the source panic inside `Board::new`). -/
def ConstraintWF (size : ℕ) (k : Constraint) : Prop :=
  (∀ h ∈ k.get_houses size, HouseWF size h) ∧
  (∀ p ∈ k.get_weak_links size, p.1 < size * size * size ∧ p.2 < size * size * size)

/-- Every constraint of the list is well-formed. -/
def WFcons (size : ℕ) (cons : List Constraint) : Prop :=
  ∀ k ∈ cons, ConstraintWF size k

/-- The spec's side condition on a supplied region assignment: it covers
every cell exactly once with `size` cells per region. -/
def coversExactly (size : ℕ) (regions : List ℕ) : Prop :=
  regions.length = size * size ∧ ∀ r ∈ regions, regions.count r = size

/-- All fields of `BoardData` other than the weak-link contents agree
(the weak-link vector keeps its length). -/
structure EqShape (d0 d : BoardData) : Prop where
  size_eq : d.size = d0.size
  num_cells_eq : d.num_cells = d0.num_cells
  num_candidates_eq : d.num_candidates = d0.num_candidates
  mask_eq : d.all_values_mask = d0.all_values_mask
  houses_eq : d.houses = d0.houses
  hbc_eq : d.houses_by_cell = d0.houses_by_cell
  cons_eq : d.constraints = d0.constraints
  len_eq : d.weak_links.length = d0.weak_links.length

/-- The weak-link graph invariants: symmetry, the directed-edge count, and
the absence of self-loops. -/
def WLInv (d : BoardData) : Prop :=
  (∀ a b : ℕ, a ∈ wlGet d b ↔ b ∈ wlGet d a) ∧
  d.total_weak_links = (d.weak_links.map List.length).sum ∧
  (∀ a : ℕ, a ∉ wlGet d a)

/-- The invariant carried through weak-link construction: the shape of a
reference `BoardData` is kept and the graph invariants hold. -/
def Master (d0 d : BoardData) : Prop := EqShape d0 d ∧ WLInv d

/-- A contrived but legitimate constraint: no extra houses, one
self-paired weak link on candidate `0` (an unconditional elimination),
and an `enforce` that does nothing. -/
def selfK : Constraint :=
  ⟨fun _ => [], fun _ => [(0, 0)], fun g _ _ => (LogicResult.unchanged, g)⟩

/-- A contrived but legitimate constraint whose `enforce` rewrites the
masks of cells `0` and `1` through the mutation surface (as `set_mask`
allows) and then reports `Invalid`. -/
def badK : Constraint :=
  ⟨fun _ => [], fun _ => [],
   fun g _ _ =>
     (LogicResult.invalid,
      (g.set 0 ⟨{1, 2}, false⟩).set 1 ⟨{1, 2}, false⟩)⟩

/-- A size-2 board with value 2 already cleared at cell 1, so that solving
cell 0 to value 1 fails during the weak-link elimination loop. -/
def witnessBoardC3 : Board := ((Board.new 2 [] []).clear_value 1 2).1

/-! ## A heap model of `Arc`-shared `BoardData`

`Board`'s derived `Clone` copies the per-cell grid and shares the
reference-counted `BoardData`.  To state that shared structure never leaks
a mutation, grids and `BoardData` values live in explicit stores and a
board is a pair of store indices; every mutation of the source's public
surface writes only the grid store at the board's own index (the source's
`&mut self` methods write only `self.board`; the `Arc<BoardData>` pointee
is immutable). -/

/-- One mutation of the `Board` surface. -/
inductive Cmd where
  | clearValueCmd (cell val : ℕ)
  | clearCandidateCmd (cand : ℕ)
  | clearCandidatesCmd (cands : List ℕ)
  | setSolvedCmd (cell val : ℕ)
  | setMaskCmd (cell : ℕ) (mask : ValueMask)

/-- The stores of grids and shared `BoardData` values. -/
structure Heap where
  grids : List (List ValueMask)
  datas : List BoardData

/-- A board as a pair of store indices: its own grid and the shared
`BoardData`. -/
structure BoardRef where
  gridRef : ℕ
  dataRef : ℕ

/-- The `Board` value a reference currently denotes. -/
def boardOf (h : Heap) (r : BoardRef) : Board :=
  ⟨h.grids.getD r.gridRef [], h.datas.getD r.dataRef default⟩

/-- Write a board's grid back to its own slot of the grid store. -/
def writeGrid (h : Heap) (r : BoardRef) (g : List ValueMask) : Heap :=
  { h with grids := h.grids.set r.gridRef g }

/-- Run one mutation against the heap; the `Bool` is `false` when the
mutation panicked (the `set_mask` assertion), after which nothing further
runs. -/
def execCmd (h : Heap) (r : BoardRef) : Cmd → Heap × Bool
  | .clearValueCmd cell val =>
    (writeGrid h r ((boardOf h r).clear_value cell val).1.board, true)
  | .clearCandidateCmd cand =>
    (writeGrid h r ((boardOf h r).clear_candidate cand).1.board, true)
  | .clearCandidatesCmd cands =>
    (writeGrid h r ((boardOf h r).clear_candidates cands).1.board, true)
  | .setSolvedCmd cell val =>
    (writeGrid h r ((boardOf h r).set_solved cell val).1.board, true)
  | .setMaskCmd cell mask =>
    match (boardOf h r).set_mask cell mask with
    | none => (h, false)
    | some res => (writeGrid h r res.1.board, true)

/-- Run a sequence of mutations against one board reference, stopping at a
panic. -/
def execCmds (h : Heap) (r : BoardRef) (cmds : List Cmd) : Heap :=
  (cmds.foldl (fun acc c => if acc.2 then execCmd acc.1 r c else acc) (h, true)).1

/-- The derived `Clone` of `Board` (line 11): allocate a fresh copy of the
per-cell grid, share the `BoardData`. -/
def shallowClone (h : Heap) (r : BoardRef) : Heap × BoardRef :=
  (⟨h.grids ++ [h.grids.getD r.gridRef []], h.datas⟩, ⟨h.grids.length, r.dataRef⟩)

/-! ## List helpers -/

theorem listSet_of_len_le {α : Type} (l : List α) (i : ℕ) (x : α)
    (h : l.length ≤ i) : l.set i x = l := by
  induction l generalizing i with
  | nil => rfl
  | cons a t ih =>
    cases i with
    | zero => simp at h
    | succ j => simp only [List.set]; rw [ih j (by simpa using h)]

theorem listGetD_set_self {α : Type} (l : List α) (i : ℕ) (x d : α)
    (h : i < l.length) : (l.set i x).getD i d = x := by
  induction l generalizing i with
  | nil => simp at h
  | cons a t ih =>
    cases i with
    | zero => rfl
    | succ j => simpa using ih j (by simpa using h)

theorem listGetD_set_ne {α : Type} (l : List α) (i j : ℕ) (x d : α)
    (h : i ≠ j) : (l.set i x).getD j d = l.getD j d := by
  induction l generalizing i j with
  | nil => rfl
  | cons a t ih =>
    cases i with
    | zero =>
      cases j with
      | zero => exact absurd rfl h
      | succ j2 => rfl
    | succ i2 =>
      cases j with
      | zero => rfl
      | succ j2 => simpa using ih i2 j2 (by omega)

theorem listGetD_replicate_default {α : Type} (n i : ℕ) (d : α) :
    (List.replicate n d).getD i d = d := by
  induction n generalizing i with
  | zero => cases i <;> rfl
  | succ m ih =>
    cases i with
    | zero => rfl
    | succ j => simp [List.replicate]

theorem listGetD_replicate_lt {α : Type} (n i : ℕ) (v d : α) (h : i < n) :
    (List.replicate n v).getD i d = v := by
  induction n generalizing i with
  | zero => omega
  | succ m ih =>
    cases i with
    | zero => rfl
    | succ j => simpa [List.replicate] using ih j (by omega)

theorem listGetD_append_left {α : Type} (l1 l2 : List α) (i : ℕ) (d : α)
    (h : i < l1.length) : (l1 ++ l2).getD i d = l1.getD i d := by
  induction l1 generalizing i with
  | nil => simp at h
  | cons a t ih =>
    cases i with
    | zero => rfl
    | succ j => simpa using ih j (by simpa using h)

theorem map_sum_set {α : Type} (f : α → ℕ) (l : List α) (i : ℕ) (x d : α)
    (h : i < l.length) :
    ((l.set i x).map f).sum + f (l.getD i d) = (l.map f).sum + f x := by
  induction l generalizing i with
  | nil => simp at h
  | cons a t ih =>
    cases i with
    | zero => simp [List.set]; omega
    | succ j =>
      have := ih j (by simpa using h)
      simp only [List.set, List.map_cons, List.sum_cons, List.getD_cons_succ]
      omega

theorem mem_insertSorted (x a : ℕ) (l : List ℕ) :
    a ∈ insertSorted x l ↔ a = x ∨ a ∈ l := by
  induction l with
  | nil => simp [insertSorted]
  | cons y ys ih =>
    by_cases h1 : x < y
    · simp [insertSorted, h1]
    · by_cases h2 : x = y
      · subst h2
        simp only [insertSorted, if_neg h1, if_pos rfl]
        constructor
        · exact Or.inr
        · rintro (rfl | hm)
          · exact List.mem_cons_self _ _
          · exact hm
      · simp only [insertSorted, if_neg h1, if_neg h2, List.mem_cons, ih]
        tauto

theorem length_insertSorted_of_not_mem (x : ℕ) (l : List ℕ) (h : x ∉ l) :
    (insertSorted x l).length = l.length + 1 := by
  induction l with
  | nil => rfl
  | cons y ys ih =>
    have hxy : x ≠ y := by intro he; exact h (he ▸ List.mem_cons_self _ _)
    by_cases h1 : x < y
    · simp [insertSorted, h1]
    · simp only [insertSorted, if_neg h1, if_neg hxy, List.length_cons]
      rw [ih (fun hm => h (List.mem_cons_of_mem _ hm))]

theorem foldl_preserves {σ α : Type} (f : σ → α → σ) (P : σ → Prop)
    (l : List α) (s : σ) (h : P s)
    (hf : ∀ s a, a ∈ l → P s → P (f s a)) : P (l.foldl f s) := by
  induction l generalizing s with
  | nil => exact h
  | cons a t ih =>
    exact ih (f s a) (hf s a (List.mem_cons_self _ _) h)
      (fun s2 b hb => hf s2 b (List.mem_cons_of_mem _ hb))

theorem pairsOf_mem (l : List ℕ) (x y : ℕ) (h : (x, y) ∈ pairsOf l) :
    x ∈ l ∧ y ∈ l := by
  induction l with
  | nil => simp [pairsOf] at h
  | cons a t ih =>
    simp only [pairsOf, List.mem_append, List.mem_map] at h
    rcases h with ⟨b, hb, he⟩ | h2
    · obtain ⟨he1, he2⟩ := Prod.mk.inj he
      subst he1; subst he2
      exact ⟨List.mem_cons_self _ _, List.mem_cons_of_mem _ hb⟩
    · obtain ⟨hx, hy⟩ := ih h2
      exact ⟨List.mem_cons_of_mem _ hx, List.mem_cons_of_mem _ hy⟩

theorem pairsOf_ne (l : List ℕ) (hl : l.Nodup) (x y : ℕ)
    (h : (x, y) ∈ pairsOf l) : x ≠ y := by
  induction l with
  | nil => simp [pairsOf] at h
  | cons a t ih =>
    simp only [pairsOf, List.mem_append, List.mem_map] at h
    rcases h with ⟨b, hb, he⟩ | h2
    · obtain ⟨he1, he2⟩ := Prod.mk.inj he
      subst he1; subst he2
      intro he2
      exact (List.nodup_cons.mp hl).1 (he2 ▸ hb)
    · exact ih (List.nodup_cons.mp hl).2 h2

/-! ## `add_weak_link` lemmas -/

theorem eqShape_refl (d : BoardData) : EqShape d d :=
  ⟨rfl, rfl, rfl, rfl, rfl, rfl, rfl, rfl⟩

theorem eqShape_trans {d0 d1 d2 : BoardData} (h1 : EqShape d0 d1)
    (h2 : EqShape d1 d2) : EqShape d0 d2 :=
  ⟨h2.size_eq.trans h1.size_eq, h2.num_cells_eq.trans h1.num_cells_eq,
   h2.num_candidates_eq.trans h1.num_candidates_eq,
   h2.mask_eq.trans h1.mask_eq, h2.houses_eq.trans h1.houses_eq,
   h2.hbc_eq.trans h1.hbc_eq, h2.cons_eq.trans h1.cons_eq,
   h2.len_eq.trans h1.len_eq⟩

theorem insertHalf_shape (d : BoardData) (c1 c2 : ℕ) :
    EqShape d (d.insertHalf c1 c2) := by
  refine ⟨?_, ?_, ?_, ?_, ?_, ?_, ?_, ?_⟩ <;>
    (unfold BoardData.insertHalf; split <;> simp)

theorem wlGet_insertHalf (d : BoardData) (c1 c2 : ℕ)
    (hc1 : c1 < d.weak_links.length) (j a : ℕ) :
    a ∈ wlGet (d.insertHalf c1 c2) j ↔ a ∈ wlGet d j ∨ (j = c1 ∧ a = c2) := by
  unfold BoardData.insertHalf
  by_cases hm : c2 ∈ wlGet d c1
  · rw [if_pos hm]
    constructor
    · exact Or.inl
    · rintro (h | ⟨rfl, rfl⟩)
      · exact h
      · exact hm
  · rw [if_neg hm]
    show a ∈ (d.weak_links.set c1 (insertSorted c2 (wlGet d c1))).getD j [] ↔ _
    by_cases hj : j = c1
    · subst hj
      rw [listGetD_set_self _ _ _ _ hc1, mem_insertSorted]
      unfold wlGet
      tauto
    · rw [listGetD_set_ne _ _ _ _ _ (fun he => hj he.symm)]
      unfold wlGet
      tauto

theorem insertHalf_total (d : BoardData) (c1 c2 : ℕ)
    (hc1 : c1 < d.weak_links.length)
    (ht : d.total_weak_links = (d.weak_links.map List.length).sum) :
    (d.insertHalf c1 c2).total_weak_links =
      ((d.insertHalf c1 c2).weak_links.map List.length).sum := by
  unfold BoardData.insertHalf
  by_cases hm : c2 ∈ wlGet d c1
  · rw [if_pos hm]; exact ht
  · rw [if_neg hm]
    show d.total_weak_links + 1 =
      ((d.weak_links.set c1 (insertSorted c2 (wlGet d c1))).map List.length).sum
    have hs := map_sum_set List.length d.weak_links c1
      (insertSorted c2 (wlGet d c1)) [] hc1
    rw [length_insertSorted_of_not_mem c2 _ hm] at hs
    unfold wlGet at hs ⊢
    omega

theorem add_weak_link_shape (d : BoardData) (c1 c2 : ℕ) :
    EqShape d (d.add_weak_link c1 c2) :=
  eqShape_trans (insertHalf_shape d c1 c2)
    (insertHalf_shape (d.insertHalf c1 c2) c2 c1)

theorem wlGet_add_weak_link (d : BoardData) (c1 c2 : ℕ)
    (hc1 : c1 < d.weak_links.length) (hc2 : c2 < d.weak_links.length)
    (j a : ℕ) :
    a ∈ wlGet (d.add_weak_link c1 c2) j ↔
      a ∈ wlGet d j ∨ (j = c1 ∧ a = c2) ∨ (j = c2 ∧ a = c1) := by
  unfold BoardData.add_weak_link
  have hlen := (insertHalf_shape d c1 c2).len_eq
  rw [wlGet_insertHalf (d.insertHalf c1 c2) c2 c1 (hlen ▸ hc2) j a,
    wlGet_insertHalf d c1 c2 hc1 j a]
  tauto

theorem add_weak_link_total (d : BoardData) (c1 c2 : ℕ)
    (hc1 : c1 < d.weak_links.length) (hc2 : c2 < d.weak_links.length)
    (ht : d.total_weak_links = (d.weak_links.map List.length).sum) :
    (d.add_weak_link c1 c2).total_weak_links =
      ((d.add_weak_link c1 c2).weak_links.map List.length).sum := by
  unfold BoardData.add_weak_link
  have hlen := (insertHalf_shape d c1 c2).len_eq
  exact insertHalf_total (d.insertHalf c1 c2) c2 c1 (hlen ▸ hc2)
    (insertHalf_total d c1 c2 hc1 ht)

theorem add_weak_link_symm (d : BoardData) (c1 c2 : ℕ)
    (hc1 : c1 < d.weak_links.length) (hc2 : c2 < d.weak_links.length)
    (hs : ∀ a b : ℕ, a ∈ wlGet d b ↔ b ∈ wlGet d a) (a b : ℕ) :
    a ∈ wlGet (d.add_weak_link c1 c2) b ↔ b ∈ wlGet (d.add_weak_link c1 c2) a := by
  rw [wlGet_add_weak_link d c1 c2 hc1 hc2 b a,
    wlGet_add_weak_link d c1 c2 hc1 hc2 a b, hs a b]
  tauto

theorem add_weak_link_noloop (d : BoardData) (c1 c2 : ℕ)
    (hc1 : c1 < d.weak_links.length) (hc2 : c2 < d.weak_links.length)
    (hne : c1 ≠ c2) (hn : ∀ a : ℕ, a ∉ wlGet d a) (a : ℕ) :
    a ∉ wlGet (d.add_weak_link c1 c2) a := by
  rw [wlGet_add_weak_link d c1 c2 hc1 hc2 a a]
  rintro (h | ⟨rfl, rfl⟩ | ⟨rfl, rfl⟩)
  · exact hn a h
  · exact hne rfl
  · exact hne rfl

theorem add_weak_link_wlInv (d : BoardData) (c1 c2 : ℕ)
    (hc1 : c1 < d.weak_links.length) (hc2 : c2 < d.weak_links.length)
    (hne : c1 ≠ c2) (hI : WLInv d) : WLInv (d.add_weak_link c1 c2) :=
  ⟨add_weak_link_symm d c1 c2 hc1 hc2 hI.1,
   add_weak_link_total d c1 c2 hc1 hc2 hI.2.1,
   add_weak_link_noloop d c1 c2 hc1 hc2 hne hI.2.2⟩

/-! ## House well-formedness -/

theorem cellAt_lt (size row col : ℕ) (hr : row < size) (hc : col < size) :
    cellAt size row col < size * size := by
  unfold cellAt
  have h1 : (row + 1) * size ≤ size * size :=
    Nat.mul_le_mul_right size (by omega)
  have h2 : (row + 1) * size = row * size + size := by ring
  omega

theorem candBound (s x v0 : ℕ) (hx : x < s * s) (hv : v0 < s) :
    x * s + v0 < s * s * s := by
  have h1 : (x + 1) * s ≤ s * s * s :=
    Nat.mul_le_mul_right s (by omega)
  have h2 : (x + 1) * s = x * s + s := by ring
  omega

theorem rowColHouses_wf (size : ℕ) : ∀ h ∈ rowColHouses size, HouseWF size h := by
  intro h hm
  unfold rowColHouses at hm
  rw [List.mem_append] at hm
  rcases hm with hm | hm <;>
    · rw [List.mem_map] at hm
      obtain ⟨i, hi, rfl⟩ := hm
      rw [List.mem_range] at hi
      constructor
      · intro c hc
        rw [List.mem_map] at hc
        obtain ⟨j, hj, rfl⟩ := hc
        rw [List.mem_range] at hj
        first
          | exact cellAt_lt size i j hi hj
          | exact cellAt_lt size j i hj hi
      · apply List.Nodup.map _ (List.nodup_range size)
        intro a b he
        simp only [cellAt] at he
        first
          | omega
          | exact Nat.eq_of_mul_eq_mul_right (by omega)
              (show a * size = b * size by omega)

theorem addIfNew_wf (size : ℕ) (houses : List House) (h : House)
    (hh : ∀ h2 ∈ houses, HouseWF size h2) (hw : HouseWF size h) :
    ∀ h2 ∈ addIfNew houses h, HouseWF size h2 := by
  intro h2 hm
  unfold addIfNew at hm
  split at hm
  · exact hh h2 hm
  · rw [List.mem_append] at hm
    rcases hm with hm | hm
    · exact hh h2 hm
    · rw [List.mem_singleton] at hm
      exact hm ▸ hw

theorem withRegionHouses_wf (size : ℕ) (regions : List ℕ)
    (houses : List House) (hh : ∀ h ∈ houses, HouseWF size h) :
    ∀ h ∈ withRegionHouses size regions houses, HouseWF size h := by
  unfold withRegionHouses
  apply foldl_preserves _ (fun hs => ∀ h ∈ hs, HouseWF size h) _ _ hh
  intro hs rid _ hP
  dsimp only
  split
  · apply addIfNew_wf size hs _ hP
    constructor
    · intro c hc
      rw [List.mem_filter, List.mem_range] at hc
      exact hc.1
    · exact (List.nodup_range _).filter _
  · exact hP

theorem withConstraintHouses_wf (size : ℕ) (cons : List Constraint)
    (houses : List House) (hh : ∀ h ∈ houses, HouseWF size h)
    (hc : ∀ k ∈ cons, ∀ h ∈ k.get_houses size, HouseWF size h) :
    ∀ h ∈ withConstraintHouses size cons houses, HouseWF size h := by
  unfold withConstraintHouses
  apply foldl_preserves _ (fun hs => ∀ h ∈ hs, HouseWF size h) _ _ hh
  intro hs k hk hP
  apply foldl_preserves _ (fun hs => ∀ h ∈ hs, HouseWF size h) _ _ hP
  intro hs2 h2 hm2 hP2
  exact addIfNew_wf size hs2 h2 hP2 (hc k hk h2 hm2)

theorem create_houses_wf (size : ℕ) (regions : List ℕ)
    (cons : List Constraint)
    (hc : ∀ k ∈ cons, ∀ h ∈ k.get_houses size, HouseWF size h) :
    ∀ h ∈ create_houses size regions cons, HouseWF size h := by
  unfold create_houses
  exact withConstraintHouses_wf size cons _
    (withRegionHouses_wf size _ _ (rowColHouses_wf size)) hc

theorem houses_by_cell_sub (size : ℕ) (houses : List House) :
    ∀ c : ℕ, ∀ h ∈ (create_houses_by_cell size houses).getD c [],
      h ∈ houses := by
  unfold create_houses_by_cell
  apply foldl_preserves _
    (fun acc : List (List House) => ∀ c : ℕ, ∀ h ∈ acc.getD c [], h ∈ houses)
  · intro c h hm
    rw [listGetD_replicate_default] at hm
    simp at hm
  · intro acc hse hmem hP
    apply foldl_preserves _
      (fun acc : List (List House) => ∀ c : ℕ, ∀ h ∈ acc.getD c [], h ∈ houses)
      _ _ hP
    intro acc2 c2 _ hP2 c h hm
    by_cases hlen : c2 < acc2.length
    · by_cases hcc : c = c2
      · subst hcc
        rw [listGetD_set_self _ _ _ _ hlen] at hm
        rw [List.mem_append] at hm
        rcases hm with hm | hm
        · exact hP2 c h hm
        · rw [List.mem_singleton] at hm
          exact hm ▸ hmem
      · rw [listGetD_set_ne _ _ _ _ _ (fun he => hcc he.symm)] at hm
        exact hP2 c h hm
    · rw [listSet_of_len_le _ _ _ (by omega)] at hm
      exact hP2 c h hm

theorem houses_by_cell_wf (size : ℕ) (houses : List House)
    (hh : ∀ h ∈ houses, HouseWF size h) :
    ∀ c : ℕ, ∀ h ∈ (create_houses_by_cell size houses).getD c [],
      HouseWF size h :=
  fun c h hm => hh h (houses_by_cell_sub size houses c h hm)

/-! ## Weak-link construction invariants -/

theorem samecell_bound (s c1 v2 : ℕ) (hc1 : c1 < s * s * s)
    (hlo : candidateVal s c1 + 1 ≤ v2)
    (hhi : v2 < candidateVal s c1 + 1 + (s - candidateVal s c1)) :
    candidateOf s (candidateCell s c1) v2 < s * s * s ∧
      c1 ≠ candidateOf s (candidateCell s c1) v2 := by
  have hs : 0 < s := by
    rcases Nat.eq_zero_or_pos s with h | h
    · subst h; simp at hc1
    · exact h
  unfold candidateVal at hlo hhi
  unfold candidateOf candidateCell
  have hdm := Nat.div_add_mod c1 s
  have hmod : c1 % s < s := Nat.mod_lt _ hs
  have hq : c1 / s < s * s := by
    rw [Nat.div_lt_iff_lt_mul hs]
    exact hc1
  have hcm : s * (c1 / s) = c1 / s * s := Nat.mul_comm _ _
  constructor
  · exact candBound s (c1 / s) (v2 - 1) hq (by omega)
  · omega

theorem housepair_bound (s : ℕ) (cells : List ℕ)
    (hb : ∀ c ∈ cells, c < s * s) (hnd : cells.Nodup) (p : ℕ × ℕ)
    (hp : p ∈ candidatePairs s cells) :
    p.1 < s * s * s ∧ p.2 < s * s * s ∧ p.1 ≠ p.2 := by
  unfold candidatePairs at hp
  rw [List.mem_flatMap] at hp
  obtain ⟨v0, hv0, hp⟩ := hp
  rw [List.mem_range] at hv0
  rw [List.mem_map] at hp
  obtain ⟨q, hq, rfl⟩ := hp
  obtain ⟨hq1, hq2⟩ := pairsOf_mem cells q.1 q.2 hq
  have hne := pairsOf_ne cells hnd q.1 q.2 hq
  have hs : 0 < s := by omega
  refine ⟨candBound s q.1 v0 (hb q.1 hq1) hv0,
    candBound s q.2 v0 (hb q.2 hq2) hv0, ?_⟩
  intro he
  dsimp only at he
  exact hne (Nat.eq_of_mul_eq_mul_right hs
    (show q.1 * s = q.2 * s by omega))

theorem add_weak_link_master (d0 d : BoardData) (c1 c2 : ℕ)
    (hc1 : c1 < d0.weak_links.length) (hc2 : c2 < d0.weak_links.length)
    (hne : c1 ≠ c2) (h : Master d0 d) : Master d0 (d.add_weak_link c1 c2) := by
  obtain ⟨hsh, hinv⟩ := h
  have hl := hsh.len_eq
  exact ⟨eqShape_trans hsh (add_weak_link_shape d c1 c2),
    add_weak_link_wlInv d c1 c2 (by omega) (by omega) hne hinv⟩

theorem sudokuStep_master (d0 : BoardData)
    (hlen : d0.weak_links.length = d0.size * d0.size * d0.size)
    (hh : ∀ c : ℕ, ∀ h ∈ d0.houses_by_cell.getD c [], HouseWF d0.size h)
    (c1 : ℕ) (hc1 : c1 < d0.size * d0.size * d0.size)
    (d : BoardData) (hd : Master d0 d) : Master d0 (d.sudokuStep c1) := by
  simp only [BoardData.sudokuStep]
  rw [hd.1.size_eq]
  have h1 : Master d0
      ((List.range' (candidateVal d0.size c1 + 1)
          (d0.size - candidateVal d0.size c1)).foldl
        (fun d val2 =>
          d.add_weak_link c1 (candidateOf d.size (candidateCell d0.size c1) val2))
        d) := by
    apply foldl_preserves _ (Master d0) _ _ hd
    intro dd v2 hv2 hdd
    rw [List.mem_range'_1] at hv2
    have hb := samecell_bound d0.size c1 v2 hc1 (by omega) (by omega)
    show Master d0
      (dd.add_weak_link c1 (candidateOf dd.size (candidateCell d0.size c1) v2))
    rw [hdd.1.size_eq]
    exact add_weak_link_master d0 dd c1 _ (by omega) (by omega) hb.2 hdd
  rw [h1.1.hbc_eq]
  apply foldl_preserves _ (Master d0) _ _ h1
  intro dd h hmem hdd
  show Master d0
    ((candidatePairs dd.size h.cells).foldl (fun d p => d.add_weak_link p.1 p.2) dd)
  rw [hdd.1.size_eq]
  apply foldl_preserves _ (Master d0) _ _ hdd
  intro dd2 p hp hdd2
  have hw := hh (candidateCell d0.size c1) h hmem
  have hb := housepair_bound d0.size h.cells hw.1 hw.2 p hp
  exact add_weak_link_master d0 dd2 p.1 p.2 (by omega) (by omega) hb.2.2 hdd2

theorem constraintStep_master (d0 : BoardData)
    (hwf : ∀ k ∈ d0.constraints, ∀ p ∈ k.get_weak_links d0.size,
      p.1 < d0.weak_links.length ∧ p.2 < d0.weak_links.length)
    (k : Constraint) (hk : k ∈ d0.constraints)
    (acc : BoardData × List ℕ) (hacc : Master d0 acc.1) :
    Master d0 (BoardData.constraintStep acc k).1 := by
  unfold BoardData.constraintStep
  rw [hacc.1.size_eq]
  apply foldl_preserves _ (fun acc : BoardData × List ℕ => Master d0 acc.1) _ _ hacc
  intro acc2 p hp hacc2
  unfold pairStep
  split
  · exact add_weak_link_master d0 acc2.1 p.1 p.2
      (hwf k hk p hp).1 (hwf k hk p hp).2 (by assumption) hacc2
  · exact hacc2

theorem init_constraint_master (d0 d : BoardData)
    (hwf : ∀ k ∈ d0.constraints, ∀ p ∈ k.get_weak_links d0.size,
      p.1 < d0.weak_links.length ∧ p.2 < d0.weak_links.length)
    (hd : Master d0 d) :
    Master d0 d.init_constraint_weak_links.1 := by
  unfold BoardData.init_constraint_weak_links
  rw [hd.1.cons_eq]
  apply foldl_preserves _ (fun acc : BoardData × List ℕ => Master d0 acc.1) _ _ hd
  intro acc k hk hacc
  exact constraintStep_master d0 hwf k hk acc hacc

theorem sum_len_replicate_nil (n : ℕ) :
    ((List.replicate n ([] : List ℕ)).map List.length).sum = 0 := by
  induction n with
  | zero => rfl
  | succ m ih => simp [List.replicate]

theorem boardData_new_master (size : ℕ) (regions : List ℕ)
    (cons : List Constraint) :
    Master (BoardData.new size regions cons) (BoardData.new size regions cons) := by
  have hw : ∀ j : ℕ, wlGet (BoardData.new size regions cons) j = [] :=
    fun j => listGetD_replicate_default _ j []
  refine ⟨eqShape_refl _, ?_, ?_, ?_⟩
  · intro a b; rw [hw a, hw b]; simp
  · exact (sum_len_replicate_nil _).symm
  · intro a; rw [hw a]; exact List.not_mem_nil a

theorem init_weak_links_master (size : ℕ) (regions : List ℕ)
    (cons : List Constraint) (hwf : WFcons size cons) :
    Master (BoardData.new size regions cons)
      ((BoardData.new size regions cons).init_weak_links.1) := by
  have hds : (BoardData.new size regions cons).size = size := rfl
  have hlen : (BoardData.new size regions cons).weak_links.length =
      (BoardData.new size regions cons).size * (BoardData.new size regions cons).size *
        (BoardData.new size regions cons).size := by
    show (List.replicate (size * (size * size)) ([] : List ℕ)).length =
      size * size * size
    rw [List.length_replicate]
    ring
  have hh : ∀ c : ℕ, ∀ h ∈ (BoardData.new size regions cons).houses_by_cell.getD c [],
      HouseWF (BoardData.new size regions cons).size h := by
    intro c h hm
    exact create_houses_wf size regions cons
      (fun k hk => (hwf k hk).1) h
      (houses_by_cell_sub size (create_houses size regions cons) c h hm)
  have h1 : Master (BoardData.new size regions cons)
      (BoardData.new size regions cons).init_sudoku_weak_links := by
    unfold BoardData.init_sudoku_weak_links
    apply foldl_preserves _ (Master (BoardData.new size regions cons)) _ _
      (boardData_new_master size regions cons)
    intro dd c1 hc1 hdd
    rw [List.mem_range] at hc1
    exact sudokuStep_master (BoardData.new size regions cons) hlen hh c1 hc1 dd hdd
  unfold BoardData.init_weak_links
  apply init_constraint_master (BoardData.new size regions cons) _ _ h1
  intro k hk p hp
  have hb := (hwf k hk).2 p (by rwa [hds] at hp)
  rw [hds] at hlen
  constructor <;> omega

theorem clear_value_data (b : Board) (cell val : ℕ) :
    (b.clear_value cell val).1.data = b.data := rfl

theorem clear_candidate_data (b : Board) (cand : ℕ) :
    (b.clear_candidate cand).1.data = b.data := rfl

theorem clear_candidates_data (b : Board) (l : List ℕ) :
    (b.clear_candidates l).1.data = b.data := by
  unfold Board.clear_candidates
  apply foldl_preserves _ (fun acc : Board × Bool => acc.1.data = b.data) _ _ rfl
  intro acc c _ hP
  exact hP

theorem boardNew_data (size : ℕ) (regions : List ℕ) (cons : List Constraint) :
    (Board.new size regions cons).data =
      (BoardData.new size regions cons).init_weak_links.1 := by
  unfold Board.new
  rw [clear_candidates_data]
  rfl

/-! ## Shape preservation without well-formedness -/

theorem insertHalf_shape_from (d0 d : BoardData) (c1 c2 : ℕ)
    (h : EqShape d0 d) : EqShape d0 (d.insertHalf c1 c2) :=
  eqShape_trans h (insertHalf_shape d c1 c2)

theorem add_weak_link_shape_from (d0 d : BoardData) (c1 c2 : ℕ)
    (h : EqShape d0 d) : EqShape d0 (d.add_weak_link c1 c2) :=
  eqShape_trans h (add_weak_link_shape d c1 c2)

theorem sudokuStep_shape (d0 d : BoardData) (c1 : ℕ) (h : EqShape d0 d) :
    EqShape d0 (d.sudokuStep c1) := by
  simp only [BoardData.sudokuStep]
  have h1 : EqShape d0
      ((List.range' (candidateVal d.size c1 + 1) (d.size - candidateVal d.size c1)).foldl
        (fun dd val2 =>
          dd.add_weak_link c1 (candidateOf dd.size (candidateCell d.size c1) val2))
        d) := by
    apply foldl_preserves _ (EqShape d0) _ _ h
    intro dd v2 _ hdd
    exact add_weak_link_shape_from d0 dd _ _ hdd
  apply foldl_preserves _ (EqShape d0) _ _ h1
  intro dd hs _ hdd
  apply foldl_preserves _ (EqShape d0) _ _ hdd
  intro dd2 p _ hdd2
  exact add_weak_link_shape_from d0 dd2 _ _ hdd2

theorem init_sudoku_shape (d : BoardData) :
    EqShape d d.init_sudoku_weak_links := by
  unfold BoardData.init_sudoku_weak_links
  apply foldl_preserves _ (EqShape d) _ _ (eqShape_refl d)
  intro dd c1 _ hdd
  exact sudokuStep_shape d dd c1 hdd

theorem pairStep_shape (d0 : BoardData) (acc : BoardData × List ℕ) (p : ℕ × ℕ)
    (h : EqShape d0 acc.1) : EqShape d0 (pairStep acc p).1 := by
  unfold pairStep
  split
  · exact add_weak_link_shape_from d0 acc.1 _ _ h
  · exact h

theorem constraintStep_shape (d0 : BoardData) (acc : BoardData × List ℕ)
    (k : Constraint) (h : EqShape d0 acc.1) :
    EqShape d0 (BoardData.constraintStep acc k).1 := by
  unfold BoardData.constraintStep
  apply foldl_preserves _ (fun acc : BoardData × List ℕ => EqShape d0 acc.1) _ _ h
  intro acc2 p _ h2
  exact pairStep_shape d0 acc2 p h2

theorem init_constraint_shape (d0 : BoardData) (acc : BoardData × List ℕ)
    (cs : List Constraint) (h : EqShape d0 acc.1) :
    EqShape d0 (cs.foldl BoardData.constraintStep acc).1 := by
  apply foldl_preserves _ (fun acc : BoardData × List ℕ => EqShape d0 acc.1) _ _ h
  intro acc2 k _ h2
  exact constraintStep_shape d0 acc2 k h2

theorem init_weak_links_shape (d : BoardData) :
    EqShape d d.init_weak_links.1 := by
  unfold BoardData.init_weak_links BoardData.init_constraint_weak_links
  exact init_constraint_shape d _ _ (init_sudoku_shape d)

/-! ## Collection of forced eliminations -/

theorem pairs_fold_mono (ps : List (ℕ × ℕ)) (acc : BoardData × List ℕ)
    (x : ℕ) (h : x ∈ acc.2) : x ∈ (ps.foldl pairStep acc).2 := by
  apply foldl_preserves _ (fun acc : BoardData × List ℕ => x ∈ acc.2) _ _ h
  intro acc2 p _ h2
  unfold pairStep
  split
  · exact h2
  · exact List.mem_append_left _ h2

theorem pairs_fold_self (ps : List (ℕ × ℕ)) : ∀ (acc : BoardData × List ℕ)
    (a : ℕ), (a, a) ∈ ps → a ∈ (ps.foldl pairStep acc).2 := by
  induction ps with
  | nil => intro acc a ha; simp at ha
  | cons p rest ih =>
    intro acc a ha
    rw [List.foldl_cons]
    rcases List.mem_cons.mp ha with he | hm
    · have he2 : p = (a, a) := he.symm
      subst he2
      apply pairs_fold_mono
      unfold pairStep
      simp
    · exact ih (pairStep acc p) a hm

theorem cons_fold_elims_mono (cs : List Constraint) (acc : BoardData × List ℕ)
    (x : ℕ) (h : x ∈ acc.2) :
    x ∈ (cs.foldl BoardData.constraintStep acc).2 := by
  apply foldl_preserves _ (fun acc : BoardData × List ℕ => x ∈ acc.2) _ _ h
  intro acc2 k _ h2
  unfold BoardData.constraintStep
  exact pairs_fold_mono _ acc2 x h2

theorem cons_fold_elims (cs : List Constraint) : ∀ (acc : BoardData × List ℕ)
    (d0 : BoardData), EqShape d0 acc.1 → ∀ k ∈ cs, ∀ a : ℕ,
      (a, a) ∈ k.get_weak_links d0.size →
      a ∈ (cs.foldl BoardData.constraintStep acc).2 := by
  induction cs with
  | nil => intro acc d0 _ k hk; simp at hk
  | cons k0 rest ih =>
    intro acc d0 hsh k hk a ha
    rw [List.foldl_cons]
    rcases List.mem_cons.mp hk with he | hm
    · subst he
      apply cons_fold_elims_mono
      unfold BoardData.constraintStep
      rw [hsh.size_eq]
      exact pairs_fold_self _ acc a ha
    · exact ih (BoardData.constraintStep acc k0) d0
        (constraintStep_shape d0 acc k0 hsh) k hm a ha

theorem forcedElims_mem (size : ℕ) (regions : List ℕ) (cons : List Constraint)
    (k : Constraint) (hk : k ∈ cons) (a : ℕ)
    (ha : (a, a) ∈ k.get_weak_links size) :
    a ∈ forcedElims size regions cons := by
  unfold forcedElims BoardData.init_weak_links BoardData.init_constraint_weak_links
  have hcs : (BoardData.new size regions cons).init_sudoku_weak_links.constraints
      = cons := (init_sudoku_shape _).cons_eq
  rw [hcs]
  exact cons_fold_elims cons _ (BoardData.new size regions cons)
    (init_sudoku_shape _) k hk a ha

/-! ## Grid mutation lemmas -/

theorem listGetD_oob {α : Type} (l : List α) (i : ℕ) (d : α)
    (h : l.length ≤ i) : l.getD i d = d := by
  induction l generalizing i with
  | nil => cases i <;> rfl
  | cons a t ih =>
    cases i with
    | zero => simp at h
    | succ j => simpa using ih j (by simpa using h)

theorem clearAllPure_nil (b : Board) : clearAllPure b [] = b := rfl

theorem clearAllPure_cons (b : Board) (e : ℕ) (l : List ℕ) :
    clearAllPure b (e :: l) = clearAllPure (b.clear_candidate e).1 l := rfl

theorem clearStep_pair (p : Board × Bool) (c : ℕ) :
    clearStep p c = ((p.1.clear_candidate c).1, p.2 && (p.1.clear_candidate c).2) :=
  rfl

theorem cc_board_general (l : List ℕ) : ∀ p : Board × Bool,
    (l.foldl clearStep p).1 = clearAllPure p.1 l := by
  induction l with
  | nil => intro p; rfl
  | cons e rest ih =>
    intro p
    rw [List.foldl_cons, ih, clearStep_pair, clearAllPure_cons]

theorem clear_candidates_board (b : Board) (l : List ℕ) :
    (b.clear_candidates l).1 = clearAllPure b l := by
  unfold Board.clear_candidates
  exact cc_board_general l (b, true)

theorem cc_false_absorb (l : List ℕ) : ∀ b : Board,
    (l.foldl clearStep (b, false)).2 = false := by
  induction l with
  | nil => intro b; rfl
  | cons e rest ih =>
    intro b
    rw [List.foldl_cons, clearStep_pair]
    simpa using ih (b.clear_candidate e).1

theorem cc_false_iff (l : List ℕ) : ∀ b : Board,
    ((l.foldl clearStep (b, true)).2 = false ↔
      ∃ i, i < l.length ∧
        ((clearAllPure b (l.take i)).clear_candidate (l.getD i 0)).2 = false) := by
  induction l with
  | nil =>
    intro b
    constructor
    · intro h; exact absurd h (by simp)
    · rintro ⟨i, hi, _⟩; simp at hi
  | cons e rest ih =>
    intro b
    rw [List.foldl_cons, clearStep_pair]
    cases hr : (b.clear_candidate e).2 with
    | false =>
      simp only [Bool.true_and]
      constructor
      · intro _
        refine ⟨0, by simp, ?_⟩
        simpa [clearAllPure_nil] using hr
      · intro _
        exact cc_false_absorb rest (b.clear_candidate e).1
    | true =>
      simp only [Bool.true_and]
      rw [ih (b.clear_candidate e).1]
      constructor
      · rintro ⟨j, hj, hP⟩
        refine ⟨j + 1, by simpa using hj, ?_⟩
        simpa [List.take_succ_cons, List.getD_cons_succ, clearAllPure_cons] using hP
      · rintro ⟨i, hi, hP⟩
        cases i with
        | zero =>
          rw [List.take_zero, clearAllPure_nil] at hP
          simp only [List.getD_cons_zero] at hP
          rw [hr] at hP
          exact absurd hP (by simp)
        | succ j =>
          refine ⟨j, by simpa using hi, ?_⟩
          simpa [List.take_succ_cons, List.getD_cons_succ, clearAllPure_cons] using hP

theorem clear_candidates_false_iff (b : Board) (l : List ℕ) :
    ((b.clear_candidates l).2 = false ↔
      ∃ i, i < l.length ∧
        ((clearAllPure b (l.take i)).clear_candidate (l.getD i 0)).2 = false) := by
  unfold Board.clear_candidates
  exact cc_false_iff l b

theorem clear_candidate_self_absent (b : Board) (e : ℕ) :
    (b.clear_candidate e).1.has_candidate e = false := by
  have hde : (b.clear_candidate e).1.data = b.data := rfl
  unfold Board.has_candidate
  rw [hde]
  unfold Board.clear_candidate Board.clear_value Board.cell
  dsimp only
  by_cases hlt : candidateCell b.data.size e < b.board.length
  · rw [listGetD_set_self _ _ _ _ hlt]
    simp [ValueMask.has, ValueMask.without]
  · rw [listSet_of_len_le _ _ _ (by omega), listGetD_oob _ _ _ (by omega)]
    simp [ValueMask.has]
    exact Finset.not_mem_empty _

theorem clear_value_values_subset (b : Board) (cell val c : ℕ) :
    ((b.clear_value cell val).1.cell c).values ⊆ (b.cell c).values := by
  unfold Board.clear_value Board.cell
  dsimp only
  by_cases hlt : cell < b.board.length
  · by_cases hc : c = cell
    · subst hc
      rw [listGetD_set_self _ _ _ _ hlt]
      exact Finset.erase_subset _ _
    · rw [listGetD_set_ne _ _ _ _ _ (fun he => hc he.symm)]
  · rw [listSet_of_len_le _ _ _ (by omega)]

theorem clear_candidate_preserves_absent (b : Board) (x e : ℕ)
    (h : b.has_candidate x = false) :
    (b.clear_candidate e).1.has_candidate x = false := by
  have hde : (b.clear_candidate e).1.data = b.data := rfl
  unfold Board.has_candidate at h ⊢
  rw [hde]
  have hsub := clear_value_values_subset b (candidateCell b.data.size e)
    (candidateVal b.data.size e) (candidateCell b.data.size x)
  unfold ValueMask.has at h ⊢
  simp only [decide_eq_false_iff_not] at h ⊢
  intro hmem
  exact h (hsub hmem)

theorem clearAllPure_preserves_absent (l : List ℕ) (b : Board) (x : ℕ)
    (h : b.has_candidate x = false) :
    (clearAllPure b l).has_candidate x = false := by
  unfold clearAllPure
  apply foldl_preserves _ (fun b2 : Board => b2.has_candidate x = false) _ _ h
  intro b2 e _ h2
  exact clear_candidate_preserves_absent b2 x e h2

theorem clearAllPure_absent_of_mem (l : List ℕ) : ∀ (b : Board), ∀ e ∈ l,
    (clearAllPure b l).has_candidate e = false := by
  induction l with
  | nil => intro b e he; simp at he
  | cons x rest ih =>
    intro b e he
    rw [clearAllPure_cons]
    rcases List.mem_cons.mp he with rfl | hm
    · exact clearAllPure_preserves_absent rest _ e (clear_candidate_self_absent b e)
    · exact ih _ e hm

theorem clear_candidate_preserves_nonempty (b : Board) (e c : ℕ)
    (hflag : (b.clear_candidate e).2 = true)
    (h : (b.cell c).values ≠ ∅) :
    ((b.clear_candidate e).1.cell c).values ≠ ∅ := by
  have hfl : ((b.board.getD (candidateCell b.data.size e) default).without
      (candidateVal b.data.size e)).values ≠ ∅ := by
    have he : (b.clear_candidate e).2 =
        !((b.board.getD (candidateCell b.data.size e) default).without
          (candidateVal b.data.size e)).is_empty := rfl
    rw [he] at hflag
    simpa [ValueMask.is_empty] using hflag
  have hb : (b.clear_candidate e).1.board =
      b.board.set (candidateCell b.data.size e)
        ((b.board.getD (candidateCell b.data.size e) default).without
          (candidateVal b.data.size e)) := rfl
  unfold Board.cell at h ⊢
  rw [hb]
  by_cases hlt : candidateCell b.data.size e < b.board.length
  · by_cases hc : c = candidateCell b.data.size e
    · subst hc
      rw [listGetD_set_self _ _ _ _ hlt]
      exact hfl
    · rw [listGetD_set_ne _ _ _ _ _ (fun he2 => hc he2.symm)]
      exact h
  · rw [listSet_of_len_le _ _ _ (by omega)]
    exact h

theorem cc_true_nonempty (l : List ℕ) : ∀ (b : Board) (c : ℕ),
    (l.foldl clearStep (b, true)).2 = true → (b.cell c).values ≠ ∅ →
    ((l.foldl clearStep (b, true)).1.cell c).values ≠ ∅ := by
  induction l with
  | nil => intro b c _ h; exact h
  | cons e rest ih =>
    intro b c hflag h
    rw [List.foldl_cons, clearStep_pair] at hflag ⊢
    dsimp only at hflag ⊢
    cases hr : (b.clear_candidate e).2 with
    | false =>
      rw [hr] at hflag
      simp only [Bool.true_and] at hflag
      rw [cc_false_absorb rest (b.clear_candidate e).1] at hflag
      exact absurd hflag (by simp)
    | true =>
      simp only [Bool.true_and, Bool.and_self] at hflag ⊢
      rw [hr] at hflag
      exact ih (b.clear_candidate e).1 c hflag
        (clear_candidate_preserves_nonempty b e c hr h)

/-! ## Claims C1, C9, C2, C4, C5, C6 -/

/-- C1: for every `BoardData` produced by `Board::new` — any size, any
region assignment, any (well-formed) constraint list — the weak-link graph
is symmetric: `a` is a member of `b`'s weak-link set iff `b` is a member
of `a`'s. -/
theorem weak_link_graph_symmetric (size : ℕ) (regions : List ℕ)
    (cons : List Constraint) (hwf : WFcons size cons) (a b : ℕ) :
    (a ∈ wlGet (Board.new size regions cons).data b ↔
      b ∈ wlGet (Board.new size regions cons).data a) := by
  rw [boardNew_data]
  exact (init_weak_links_master size regions cons hwf).2.1 a b

/-- Witness for C1 at size 2, no regions, no constraints, candidates 4
and 0. -/
theorem weak_link_graph_symmetric_witness :
    (4 ∈ wlGet (Board.new 2 [] []).data 0 ↔
      0 ∈ wlGet (Board.new 2 [] []).data 4) :=
  weak_link_graph_symmetric 2 [] []
    (fun k hk => absurd hk (List.not_mem_nil k)) 4 0

/-- C9: after construction, `total_weak_links` is the number of directed
edges actually inserted — the sum of the sizes of all per-candidate
weak-link sets. -/
theorem total_weak_links_eq_sum (size : ℕ) (regions : List ℕ)
    (cons : List Constraint) (hwf : WFcons size cons) :
    (Board.new size regions cons).data.total_weak_links =
      ((Board.new size regions cons).data.weak_links.map List.length).sum := by
  rw [boardNew_data]
  exact (init_weak_links_master size regions cons hwf).2.2.1

/-- Witness for C9 at size 2, no regions, no constraints. -/
theorem total_weak_links_eq_sum_witness :
    (Board.new 2 [] []).data.total_weak_links =
      ((Board.new 2 [] []).data.weak_links.map List.length).sum :=
  total_weak_links_eq_sum 2 [] [] (fun k hk => absurd hk (List.not_mem_nil k))

/-- C2: when a `set_solved` precondition fails — the value is not a
candidate at the cell, or the cell's mask is already solved — the call
returns `false` and the board is returned exactly as it was (no cell mask
changes). -/
theorem set_solved_precondition_no_mutation (b : Board) (cell val : ℕ)
    (hpre : (b.cell cell).has val = false ∨
      (b.board.getD cell default).is_solved = true) :
    b.set_solved cell val = (b, false) := by
  unfold Board.set_solved
  split_ifs with h1 h2
  · rfl
  · rfl
  · rcases hpre with h | h
    · exact absurd (by rw [h]; rfl) h1
    · exact absurd h h2

/-- Witness for C2: solving value 3 at cell 0 of an empty size-2 board
(3 is not a candidate there). -/
theorem set_solved_precondition_no_mutation_witness :
    Board.set_solved (Board.new 2 [] []) 0 3 = (Board.new 2 [] [], false) :=
  set_solved_precondition_no_mutation (Board.new 2 [] []) 0 3
    (Or.inl (by decide))

/-- C4: `clear_candidates` applies `clear_candidate` to each entry in list
order with no short-circuit (the final grid is the full fold, and each
listed candidate ends up removed), and it returns `false` iff some
individual clear, at its point in the sequence, reported a contradiction. -/
theorem clear_candidates_all_applied (b : Board) (l : List ℕ) :
    (b.clear_candidates l).1 = clearAllPure b l ∧
    (∀ e ∈ l, (b.clear_candidates l).1.has_candidate e = false) ∧
    ((b.clear_candidates l).2 = false ↔
      ∃ i, i < l.length ∧
        ((clearAllPure b (l.take i)).clear_candidate (l.getD i 0)).2 = false) := by
  refine ⟨clear_candidates_board b l, ?_, clear_candidates_false_iff b l⟩
  intro e he
  rw [clear_candidates_board b l]
  exact clearAllPure_absent_of_mem l b e he

/-- C5: a self-paired constraint link `(a, a)` is never added as a graph
edge; it is collected as a forced elimination, and right after `Board::new`
returns the candidate is gone from the board. -/
theorem self_pair_is_forced_elimination (size : ℕ) (regions : List ℕ)
    (cons : List Constraint) (hwf : WFcons size cons) (k : Constraint)
    (hk : k ∈ cons) (a : ℕ) (ha : (a, a) ∈ k.get_weak_links size) :
    a ∈ forcedElims size regions cons ∧
    a ∉ wlGet (Board.new size regions cons).data a ∧
    (Board.new size regions cons).has_candidate a = false := by
  refine ⟨forcedElims_mem size regions cons k hk a ha, ?_, ?_⟩
  · rw [boardNew_data]
    exact (init_weak_links_master size regions cons hwf).2.2.2 a
  · unfold Board.new
    rw [clear_candidates_board]
    exact clearAllPure_absent_of_mem _ _ a
      (forcedElims_mem size regions cons k hk a ha)

/-- Witness for C5: the self-pair constraint `selfK` on a size-2 board. -/
theorem self_pair_is_forced_elimination_witness :
    0 ∈ forcedElims 2 [] [selfK] ∧
    0 ∉ wlGet (Board.new 2 [] [selfK]).data 0 ∧
    (Board.new 2 [] [selfK]).has_candidate 0 = false :=
  self_pair_is_forced_elimination 2 [] [selfK]
    (by
      intro k hk
      rw [List.mem_singleton] at hk
      subst hk
      refine ⟨fun h hh => absurd hh (List.not_mem_nil h), ?_⟩
      intro p hp
      have he : selfK.get_weak_links 2 = [(0, 0)] := rfl
      rw [he, List.mem_singleton] at hp
      subst hp
      exact ⟨by norm_num, by norm_num⟩)
    selfK (List.mem_singleton.mpr rfl) 0 (List.mem_singleton.mpr rfl)

/-- C6: if applying the forced eliminations empties some cell's mask,
construction still yields a Board (the very board of the internal
`clear_candidates` application), and that application reports `false`. -/
theorem unsatisfiable_construction_reports (size : ℕ) (regions : List ℕ)
    (cons : List Constraint) (c : ℕ) (hc : c < size * size)
    (hempty : ((clearAllPure (freshBoard size regions cons)
        (forcedElims size regions cons)).cell c).values = ∅) :
    ((freshBoard size regions cons).clear_candidates
        (forcedElims size regions cons)).2 = false ∧
    Board.new size regions cons =
      ((freshBoard size regions cons).clear_candidates
        (forcedElims size regions cons)).1 := by
  constructor
  · by_contra hne
    have htrue : ((freshBoard size regions cons).clear_candidates
        (forcedElims size regions cons)).2 = true := by
      cases hb : ((freshBoard size regions cons).clear_candidates
          (forcedElims size regions cons)).2
      · exact absurd hb hne
      · rfl
    have hsh := init_weak_links_shape (BoardData.new size regions cons)
    have hnum : (BoardData.new size regions cons).init_weak_links.1.num_cells
        = size * size := hsh.num_cells_eq
    have hmask : (BoardData.new size regions cons).init_weak_links.1.all_values_mask
        = ValueMask.from_all_values size := hsh.mask_eq
    have hs1 : 1 ≤ size := by
      rcases Nat.eq_zero_or_pos size with h | h
      · subst h; simp at hc
      · omega
    have hstart : ((freshBoard size regions cons).cell c).values ≠ ∅ := by
      show ((List.replicate
          (BoardData.new size regions cons).init_weak_links.1.num_cells
          (BoardData.new size regions cons).init_weak_links.1.all_values_mask).getD
            c default).values ≠ ∅
      rw [hnum, hmask, listGetD_replicate_lt _ _ _ _ hc]
      exact Finset.Nonempty.ne_empty (Finset.nonempty_Icc.mpr hs1)
    unfold Board.clear_candidates at htrue
    have hne2 := cc_true_nonempty (forcedElims size regions cons)
      (freshBoard size regions cons) c htrue hstart
    rw [cc_board_general] at hne2
    exact hne2 hempty
  · rfl

/-- Witness for C6: a size-1 board with the self-pair constraint `selfK` —
the single elimination empties the only cell. -/
theorem unsatisfiable_construction_reports_witness :
    ((freshBoard 1 [] [selfK]).clear_candidates (forcedElims 1 [] [selfK])).2
        = false ∧
    Board.new 1 [] [selfK] =
      ((freshBoard 1 [] [selfK]).clear_candidates (forcedElims 1 [] [selfK])).1 :=
  unsatisfiable_construction_reports 1 [] [selfK] 0 (by norm_num) (by decide)

/-! ## Claims C7, C8, C10 -/

theorem default_regions_length (size : ℕ) :
    (default_regions size).length = size * size := by
  simp [default_regions]

/-- C7 counterexample: an assignment of the correct length (16) that does
not cover the cells with 4 cells per region (all cells share region 0) is
*not* replaced by the default box partition: the box houses are missing
from the result (8 houses instead of 12). -/
theorem create_houses_content_not_checked :
    ¬ coversExactly 4 (List.replicate 16 0) ∧
    (create_houses 4 (List.replicate 16 0) []).length = 8 ∧
    (create_houses 4 (default_regions 4) []).length = 12 ∧
    create_houses 4 (List.replicate 16 0) [] ≠
      create_houses 4 (default_regions 4) [] := by
  refine ⟨?_, by decide, by decide, by decide⟩
  unfold coversExactly
  decide

/-- C7 (amended): the supplied region assignment is discarded in favour
of the default box partition exactly when its *length* differs from the
cell count; a correct-length assignment is used as-is even when its
regions do not have `size` cells each (such regions simply produce no
house). -/
theorem create_houses_length_fallback (size : ℕ) (regions : List ℕ)
    (cons : List Constraint) (h : regions.length ≠ size * size) :
    create_houses size regions cons =
      create_houses size (default_regions size) cons := by
  unfold create_houses
  rw [if_neg h, if_pos (default_regions_length size)]

/-- Witness for the amended C7: a length-1 assignment at size 2 falls back
to the default partition. -/
theorem create_houses_length_fallback_witness :
    create_houses 2 [0] [] = create_houses 2 (default_regions 2) [] :=
  create_houses_length_fallback 2 [0] [] (by decide)

set_option maxHeartbeats 4000000 in
/-- C8: at size 4 with default regions and no constraints, the weak-link
set of candidate (cell (0,0), value 1) has exactly the 10 members the spec
enumerates: the other 3 values at (0,0), value 1 at the other cells of
row 0 and of column 0, and value 1 at cell (1,1) (in ascending stored
order). -/
theorem size4_weak_links_of_corner :
    wlGet (Board.new 4 [] []).data (candidateOf 4 (cellAt 4 0 0) 1) =
      [candidateOf 4 (cellAt 4 0 0) 2, candidateOf 4 (cellAt 4 0 0) 3,
       candidateOf 4 (cellAt 4 0 0) 4, candidateOf 4 (cellAt 4 0 1) 1,
       candidateOf 4 (cellAt 4 0 2) 1, candidateOf 4 (cellAt 4 0 3) 1,
       candidateOf 4 (cellAt 4 1 0) 1, candidateOf 4 (cellAt 4 1 1) 1,
       candidateOf 4 (cellAt 4 2 0) 1, candidateOf 4 (cellAt 4 3 0) 1] ∧
    (wlGet (Board.new 4 [] []).data (candidateOf 4 (cellAt 4 0 0) 1)).length
      = 10 := by
  have h : wlGet (Board.new 4 [] []).data (candidateOf 4 (cellAt 4 0 0) 1) =
      [candidateOf 4 (cellAt 4 0 0) 2, candidateOf 4 (cellAt 4 0 0) 3,
       candidateOf 4 (cellAt 4 0 0) 4, candidateOf 4 (cellAt 4 0 1) 1,
       candidateOf 4 (cellAt 4 0 2) 1, candidateOf 4 (cellAt 4 0 3) 1,
       candidateOf 4 (cellAt 4 1 0) 1, candidateOf 4 (cellAt 4 1 1) 1,
       candidateOf 4 (cellAt 4 2 0) 1, candidateOf 4 (cellAt 4 3 0) 1] := by
    decide
  exact ⟨h, by rw [h]; rfl⟩

theorem execCmd_frame (hp : Heap) (r1 : BoardRef) (c : Cmd) (j : ℕ)
    (hj : j ≠ r1.gridRef) :
    (execCmd hp r1 c).1.grids.getD j [] = hp.grids.getD j [] ∧
    (execCmd hp r1 c).1.datas = hp.datas := by
  cases c with
  | clearValueCmd cell val =>
    exact ⟨listGetD_set_ne _ _ _ _ _ (fun he => hj he.symm), rfl⟩
  | clearCandidateCmd cand =>
    exact ⟨listGetD_set_ne _ _ _ _ _ (fun he => hj he.symm), rfl⟩
  | clearCandidatesCmd cands =>
    exact ⟨listGetD_set_ne _ _ _ _ _ (fun he => hj he.symm), rfl⟩
  | setSolvedCmd cell val =>
    exact ⟨listGetD_set_ne _ _ _ _ _ (fun he => hj he.symm), rfl⟩
  | setMaskCmd cell mask =>
    simp only [execCmd]
    cases hm : (boardOf hp r1).set_mask cell mask with
    | none =>
      simp [hm]
    | some res =>
      simp only [hm]
      exact ⟨listGetD_set_ne _ _ _ _ _ (fun he => hj he.symm), rfl⟩

/-- C10: after a shallow clone (fresh copy of the grid, shared
`BoardData`), any sequence of mutations run against the clone leaves the
original board's per-cell grid untouched and never writes any shared
`BoardData`. -/
theorem shallow_clone_no_leak (h : Heap) (r : BoardRef)
    (hr : r.gridRef < h.grids.length) (cmds : List Cmd) :
    (execCmds (shallowClone h r).1 (shallowClone h r).2 cmds).grids.getD
        r.gridRef [] = h.grids.getD r.gridRef [] ∧
    (execCmds (shallowClone h r).1 (shallowClone h r).2 cmds).datas
      = h.datas := by
  unfold execCmds shallowClone
  dsimp only
  have hbase : ((h.grids ++ [h.grids.getD r.gridRef []]).getD r.gridRef []
      = h.grids.getD r.gridRef []) := listGetD_append_left _ _ _ _ hr
  apply foldl_preserves _
    (fun acc : Heap × Bool =>
      acc.1.grids.getD r.gridRef [] = h.grids.getD r.gridRef [] ∧
      acc.1.datas = h.datas)
    cmds _ ⟨hbase, rfl⟩
  intro acc c _ hP
  dsimp only
  split
  · have hne : r.gridRef ≠ (⟨h.grids.length, r.dataRef⟩ : BoardRef).gridRef := by
      dsimp only
      omega
    have hf := execCmd_frame acc.1 ⟨h.grids.length, r.dataRef⟩ c r.gridRef hne
    exact ⟨hf.1.trans hP.1, hf.2.trans hP.2⟩
  · exact hP

/-- Witness for C10: a one-cell heap, clearing a value on the clone. -/
theorem shallow_clone_no_leak_witness :
    (execCmds (shallowClone ⟨[[⟨{1}, false⟩]], []⟩ ⟨0, 0⟩).1
        (shallowClone ⟨[[⟨{1}, false⟩]], []⟩ ⟨0, 0⟩).2
        [Cmd.clearValueCmd 0 1]).grids.getD 0 [] =
      (⟨[[⟨{1}, false⟩]], []⟩ : Heap).grids.getD 0 [] ∧
    (execCmds (shallowClone ⟨[[⟨{1}, false⟩]], []⟩ ⟨0, 0⟩).1
        (shallowClone ⟨[[⟨{1}, false⟩]], []⟩ ⟨0, 0⟩).2
        [Cmd.clearValueCmd 0 1]).datas = (⟨[[⟨{1}, false⟩]], []⟩ : Heap).datas :=
  shallow_clone_no_leak ⟨[[⟨{1}, false⟩]], []⟩ ⟨0, 0⟩ (by decide)
    [Cmd.clearValueCmd 0 1]

/-! ## Claim C3: `set_solved` failure behaviour -/

theorem clear_candidate_preserves_solved_mask (b : Board) (cell val x : ℕ)
    (hx : x ≠ candidateOf b.data.size cell val)
    (h : b.cell cell = ⟨{val}, true⟩) :
    (b.clear_candidate x).1.cell cell = ⟨{val}, true⟩ := by
  have hb : (b.clear_candidate x).1.board =
      b.board.set (candidateCell b.data.size x)
        ((b.board.getD (candidateCell b.data.size x) default).without
          (candidateVal b.data.size x)) := rfl
  unfold Board.cell at h ⊢
  rw [hb]
  by_cases hlt : candidateCell b.data.size x < b.board.length
  · by_cases hcc : candidateCell b.data.size x = cell
    · have hval : candidateVal b.data.size x ≠ val := by
        intro he
        apply hx
        rw [← hcc]
        unfold candidateOf candidateCell
        unfold candidateVal at he
        have hdm := Nat.div_add_mod x b.data.size
        have hcm : b.data.size * (x / b.data.size)
            = (x / b.data.size) * b.data.size := Nat.mul_comm _ _
        omega
      rw [hcc, listGetD_set_self _ _ _ _ (hcc ▸ hlt), h]
      unfold ValueMask.without
      rw [Finset.erase_eq_of_not_mem (by rw [Finset.mem_singleton]; exact hval)]
    · rw [listGetD_set_ne _ _ _ _ _ hcc]
      exact h
  · rw [listSet_of_len_le _ _ _ (by omega)]
    exact h

theorem clearAllPure_preserves_solved_mask (l : List ℕ) (b : Board)
    (cell val : ℕ) (hl : ∀ x ∈ l, x ≠ candidateOf b.data.size cell val)
    (h : b.cell cell = ⟨{val}, true⟩) :
    (clearAllPure b l).cell cell = ⟨{val}, true⟩ := by
  unfold clearAllPure
  have hall := foldl_preserves (fun b2 c => (b2.clear_candidate c).1)
    (fun b2 : Board => b2.data = b.data ∧ b2.cell cell = ⟨{val}, true⟩)
    l b ⟨rfl, h⟩ ?_
  · exact hall.2
  · intro b2 x hx hP
    refine ⟨hP.1, ?_⟩
    apply clear_candidate_preserves_solved_mask b2 cell val x _ hP.2
    rw [hP.1]
    exact hl x hx

theorem clearLoop_nil (b : Board) : clearLoop b [] = (b, true) := rfl

theorem clearLoop_cons (b : Board) (e : ℕ) (rest : List ℕ) :
    clearLoop b (e :: rest) =
      (if (b.clear_candidate e).2 then clearLoop (b.clear_candidate e).1 rest
       else ((b.clear_candidate e).1, false)) := rfl

theorem clearLoop_false_split (l : List ℕ) : ∀ (b : Board),
    (clearLoop b l).2 = false →
    ∃ k, k < l.length ∧ (clearLoop b l).1 = clearAllPure b (l.take (k + 1)) ∧
      ∀ x ∈ l.take (k + 1), (clearLoop b l).1.has_candidate x = false := by
  induction l with
  | nil =>
    intro b h
    rw [clearLoop_nil] at h
    exact absurd h (by simp)
  | cons e rest ih =>
    intro b h
    by_cases hr : (b.clear_candidate e).2 = true
    · have he : clearLoop b (e :: rest) = clearLoop (b.clear_candidate e).1 rest := by
        rw [clearLoop_cons, if_pos hr]
      rw [he] at h ⊢
      obtain ⟨k, hk, hb, habs⟩ := ih (b.clear_candidate e).1 h
      refine ⟨k + 1, by simpa using hk, ?_, ?_⟩
      · rw [List.take_succ_cons, clearAllPure_cons]
        exact hb
      · intro x hx
        rw [List.take_succ_cons] at hx
        rcases List.mem_cons.mp hx with rfl | hm
        · rw [hb]
          exact clearAllPure_preserves_absent _ _ _
            (clear_candidate_self_absent b x)
        · exact habs x hm
    · have hrf : (b.clear_candidate e).2 = false := by
        cases hb2 : (b.clear_candidate e).2
        · rfl
        · exact absurd hb2 hr
      have he : clearLoop b (e :: rest) = ((b.clear_candidate e).1, false) := by
        rw [clearLoop_cons, if_neg (by rw [hrf]; simp)]
      rw [he]
      refine ⟨0, by simp, ?_, ?_⟩
      · rw [List.take_succ_cons, List.take_zero, clearAllPure_cons,
          clearAllPure_nil]
      · intro x hx
        simp only [List.take_succ_cons, List.take_zero] at hx
        rw [List.mem_singleton] at hx
        subst hx
        exact clear_candidate_self_absent b x

/-- C3 counterexample: with a constraint whose `enforce` rewrites cells 0
and 1 through the mutation surface and then returns `Invalid`, the
preconditions of `set_solved(0, 1)` pass and the call returns `false`,
yet the target cell's mask is not the attempted solved state and the
previously eliminated weak-link candidate 2 holds again — so the claim as
stated fails once a constraint's callback runs. -/
theorem set_solved_constraint_can_mutate_target :
    ((Board.new 2 [] [badK]).cell 0).has 1 = true ∧
    ((Board.new 2 [] [badK]).board.getD 0 default).is_solved = false ∧
    ((Board.new 2 [] [badK]).set_solved 0 1).2 = false ∧
    ((Board.new 2 [] [badK]).set_solved 0 1).1.cell 0 ≠
      (⟨{1}, true⟩ : ValueMask) ∧
    2 ∈ wlGet (Board.new 2 [] [badK]).data (candidateOf 2 0 1) ∧
    ((Board.new 2 [] [badK]).set_solved 0 1).1.has_candidate 2 = true := by
  decide

/-- C3 (amended): when the preconditions pass, the target candidate has no
self-loop in the weak-link graph, and the weak-link elimination loop
reports a contradiction, `set_solved` returns `false` with exactly that
loop's partially mutated board: the target cell still holds the attempted
solved mask (exactly `val` with the solved flag set), and every linked
candidate processed up to and including the failure remains eliminated —
nothing is rolled back.  (When the failure comes from a constraint's
`enforce` instead, the callback may itself have rewritten masks first, as
`set_solved_constraint_can_mutate_target` shows; `set_solved` still
performs no rollback of its own.) -/
theorem set_solved_weak_link_failure_no_rollback (b : Board) (cell val : ℕ)
    (h1 : (b.cell cell).has val = true)
    (h2 : (b.board.getD cell default).is_solved = false)
    (hirr : candidateOf b.data.size cell val ∉
      wlGet b.data (candidateOf b.data.size cell val))
    (hfail : (clearLoop (b.solvedUpdate cell val)
        ((b.solvedUpdate cell val).linkTargets cell val)).2 = false) :
    b.set_solved cell val =
      ((clearLoop (b.solvedUpdate cell val)
        ((b.solvedUpdate cell val).linkTargets cell val)).1, false) ∧
    (b.set_solved cell val).1.cell cell = ⟨{val}, true⟩ ∧
    ∃ k, k < ((b.solvedUpdate cell val).linkTargets cell val).length ∧
      (b.set_solved cell val).1 = clearAllPure (b.solvedUpdate cell val)
        (((b.solvedUpdate cell val).linkTargets cell val).take (k + 1)) ∧
      ∀ x ∈ ((b.solvedUpdate cell val).linkTargets cell val).take (k + 1),
        (b.set_solved cell val).1.has_candidate x = false := by
  have e1 : b.set_solved cell val =
      ((clearLoop (b.solvedUpdate cell val)
        ((b.solvedUpdate cell val).linkTargets cell val)).1, false) := by
    unfold Board.set_solved
    simp only [h1, h2, Bool.not_true, hfail]
    simp
  have hlt : cell < b.board.length := by
    by_contra hge
    push_neg at hge
    unfold Board.cell at h1
    rw [listGetD_oob _ _ _ hge] at h1
    have hd : (default : ValueMask) = ⟨∅, false⟩ := rfl
    rw [hd] at h1
    unfold ValueMask.has at h1
    simp at h1
  have hmask1 : (b.solvedUpdate cell val).cell cell = ⟨{val}, true⟩ := by
    unfold Board.solvedUpdate Board.cell
    dsimp only
    rw [listGetD_set_self _ _ _ _ hlt]
    rfl
  have hL : ∀ x ∈ (b.solvedUpdate cell val).linkTargets cell val,
      x ≠ candidateOf b.data.size cell val := by
    intro x hx he
    subst he
    exact hirr hx
  obtain ⟨k, hk, hb, habs⟩ := clearLoop_false_split
    ((b.solvedUpdate cell val).linkTargets cell val)
    (b.solvedUpdate cell val) hfail
  refine ⟨e1, ?_, ⟨k, hk, ?_, ?_⟩⟩
  · rw [e1]
    dsimp only
    rw [hb]
    apply clearAllPure_preserves_solved_mask _ _ cell val _ hmask1
    intro x hx
    exact hL x (List.take_subset _ _ hx)
  · rw [e1]
    exact hb
  · intro x hx
    rw [e1]
    dsimp only
    exact habs x hx

/-- Witness for the amended C3 on `witnessBoardC3`: solving cell 0 to
value 1 fails while clearing the weak links (cell 1 runs out of
candidates). -/
theorem set_solved_weak_link_failure_no_rollback_witness :
    witnessBoardC3.set_solved 0 1 =
      ((clearLoop (witnessBoardC3.solvedUpdate 0 1)
        ((witnessBoardC3.solvedUpdate 0 1).linkTargets 0 1)).1, false) ∧
    (witnessBoardC3.set_solved 0 1).1.cell 0 = ⟨{1}, true⟩ ∧
    ∃ k, k < ((witnessBoardC3.solvedUpdate 0 1).linkTargets 0 1).length ∧
      (witnessBoardC3.set_solved 0 1).1 =
        clearAllPure (witnessBoardC3.solvedUpdate 0 1)
          (((witnessBoardC3.solvedUpdate 0 1).linkTargets 0 1).take (k + 1)) ∧
      ∀ x ∈ ((witnessBoardC3.solvedUpdate 0 1).linkTargets 0 1).take (k + 1),
        (witnessBoardC3.set_solved 0 1).1.has_candidate x = false :=
  set_solved_weak_link_failure_no_rollback witnessBoardC3 0 1
    (by decide) (by decide) (by decide) (by decide)
